import Mathlib

/-!
Shallow embedding of `src/Main.py` (repository `from_json`).

The program converts a JSON list of product records into CSV rows.  Its core
is:

* `NUTRIENT_ITEM_REGEX = re.compile(r'([^,]+\([^)]*\))')` used via `.findall`,
* `NUTRIENT_NAME_AND_QTY_REGEX = re.compile(r'(.*?)\((.*?)\)')` used via `.match`,
* `parse_nutrients`, `build_rows_for_product`, `build_row`, the static
  `COLUMN_MAPPING`, and the per-record row loop of `convert_json_to_csv`.

Strings are modelled as Lean `String` / `List Char`.  The two regexes are
specialised to executable scanners that implement exactly the Python `re`
backtracking semantics of these two fixed patterns (leftmost match, greedy
`[^,]+` / `[^)]*`, lazy `.*?`, `.` not matching a newline, negated classes
matching a newline).  Each scanner is documented with the derivation from the
pattern it embeds.
-/

/-- The set of code points stripped by Python's `str.strip()` (the Unicode
whitespace characters recognised by `str.isspace`). -/
def pyWhitespace : List Nat :=
  [9, 10, 11, 12, 13, 28, 29, 30, 31, 32, 133, 160, 5760,
   8192, 8193, 8194, 8195, 8196, 8197, 8198, 8199, 8200, 8201, 8202,
   8232, 8233, 8239, 8287, 12288]

/-- Python `str.isspace` on a single character. -/
def pyIsSpace (c : Char) : Bool := pyWhitespace.contains c.toNat

/-- Python `str.strip()`: drop leading and trailing whitespace. -/
def pyStrip (s : List Char) : List Char :=
  ((s.dropWhile pyIsSpace).reverse.dropWhile pyIsSpace).reverse

/-- The `[^)]*\)` tail of `NUTRIENT_ITEM_REGEX`: consume characters up to and
including the first `')'` (a negated class matches any character, newline
included).  Returns the consumed content (without the `')'`) and the rest of
the input; `none` when no `')'` occurs. -/
def closeSplit : List Char → Option (List Char × List Char)
  | [] => none
  | c :: rest =>
    if c = ')' then some ([], rest)
    else
      match closeSplit rest with
      | some (q, r) => some (c :: q, r)
      | none => none

/-- The `[^,]*\([^)]*\)` remainder of `NUTRIENT_ITEM_REGEX` after its first
mandatory `[^,]` character.  Greedy `[^,]*`: at each character the engine
first tries to extend the run (longer matches first) and only on failure uses
the current character as the literal `'('`.  A `','` can be consumed by
neither `[^,]` nor `\(`, so it fails immediately.  Returns the matched text
and the rest of the input. -/
def itemTail : List Char → Option (List Char × List Char)
  | [] => none
  | c :: rest =>
    if c = ',' then none
    else
      match itemTail rest with
      | some (m, r) => some (c :: m, r)
      | none =>
        if c = '(' then
          match closeSplit rest with
          | some (q, r) => some ('(' :: (q ++ [')']), r)
          | none => none
        else none

/-- Attempt to match `NUTRIENT_ITEM_REGEX`, i.e. `[^,]+\([^)]*\)`, anchored at
the start of the input: one mandatory `[^,]` character followed by
`[^,]*\([^)]*\)` (`itemTail`).  Returns the matched text and the rest. -/
def matchItemAt : List Char → Option (List Char × List Char)
  | [] => none
  | c :: rest =>
    if c = ',' then none
    else
      match itemTail rest with
      | some (m, r) => some (c :: m, r)
      | none => none

/-- One step of `re.findall`: try the pattern at the current position; on
success emit the match and continue after it, otherwise slide one character
to the right.  The fuel argument only bounds the recursion; `findall` supplies
`s.length`, which `findallFuel_congr` below proves is always enough, so the
truncation case never fires. -/
def findallFuel : Nat → List Char → List (List Char)
  | 0, _ => []
  | _ + 1, [] => []
  | fuel + 1, c :: t =>
    match matchItemAt (c :: t) with
    | some (m, r) => m :: findallFuel fuel r
    | none => findallFuel fuel t

/-- `NUTRIENT_ITEM_REGEX.findall(s)`: all leftmost non-overlapping matches of
`[^,]+\([^)]*\)` (the pattern's one group spans the whole pattern, so
`findall` returns the full match texts). -/
def findall (s : List Char) : List (List Char) := findallFuel s.length s

/-- The `(.*?)\)`-style tail of `NUTRIENT_NAME_AND_QTY_REGEX` group 2: lazy
scan up to the first `')'`; `.` does not match a newline, so a newline before
any `')'` aborts. -/
def scanQty : List Char → Option (List Char)
  | [] => none
  | c :: rest =>
    if c = ')' then some []
    else if c = '\n' then none
    else
      match scanQty rest with
      | some q => some (c :: q)
      | none => none

/-- `NUTRIENT_NAME_AND_QTY_REGEX.match(s)` for the pattern `(.*?)\((.*?)\)`,
anchored at the start (Python `re.match`).  Lazy group 1 tries the shortest
prefix first: at each character, if it is `'('` the engine first tries it as
the literal `\(` (with group 2 scanned by `scanQty`) and only on failure lets
group 1 swallow it; `.` refuses newlines, so group 1 cannot extend past a
newline.  Returns `(group 1, group 2)` on success. -/
def nameQty : List Char → Option (List Char × List Char)
  | [] => none
  | c :: rest =>
    if c = '\n' then none
    else if c = '(' then
      match scanQty rest with
      | some q => some ([], q)
      | none =>
        match nameQty rest with
        | some (n, q) => some (c :: n, q)
        | none => none
    else
      match nameQty rest with
      | some (n, q) => some (c :: n, q)
      | none => none

/-- `parse_nutrients` from `src/Main.py`: run `findall`, then for each item
strip it and split it with `NUTRIENT_NAME_AND_QTY_REGEX.match`; on a match
emit the stripped groups, otherwise keep the whole stripped item as the name
with an empty quantity.  (`nutrient_str or ""` in the source is the identity
on strings, it only replaces a JSON `null` by `""`.) -/
def parse_nutrients (nutrient_str : String) : List (String × String) :=
  (findall nutrient_str.data).map fun item0 =>
    let item := pyStrip item0
    match nameQty item with
    | some (n, q) => (String.mk (pyStrip n), String.mk (pyStrip q))
    | none => (String.mk item, "")

/-- `COLUMN_MAPPING` from `src/Main.py`: `(csv column, JSON source field)`,
`none` for the two procedurally filled columns. -/
def COLUMN_MAPPING : List (String × Option String) :=
  [ ("Product Name", some "Product Name"),
    ("Label Format", some "Label Format"),
    ("SKU", some "SKU"),
    ("Product ID", some "Product ID"),
    ("Size", some "Size"),
    ("#servper_Cont", some "Servings per Container"),
    ("ServingSz", some "Serving Size"),
    ("Kcal", some "Calories"),
    ("Calories from Fat from Saturated", some "Calories from Saturated Fat"),
    ("Nutrient", none),
    ("Quantity", none),
    ("Percent Allowance", some "Percent Allowance"),
    ("Comments", some "Comments"),
    ("Ingredients", some "Ingredients"),
    ("Claims", some "Claims"),
    ("Suggested Use", some "Suggested Use"),
    ("Warnings", some "Warnings"),
    ("Origin", some "Origin"),
    ("Storage", some "Storage"),
    ("Weight", some "Weight") ]

/-- A product record: a JSON object, i.e. a mapping from field names to
string values, modelled as an association list. -/
abbrev Product := List (String × String)

/-- An output row: a mapping from CSV column names to values, in
`COLUMN_MAPPING` order (Python dicts preserve insertion order). -/
abbrev Row := List (String × String)

/-- Python `dict.get(key, default)` on a product record. -/
def pget (product : Product) (key default : String) : String :=
  (List.lookup key product).getD default

/-- `build_row` from `src/Main.py`.  The `if is_first_row and json_key:`
guard uses Python truthiness, so a `None` or empty-string source key also
falls to the blank branch. -/
def build_row (product_data : Product) (nutrient_name quantity : String)
    (is_first_row : Bool) : Row :=
  COLUMN_MAPPING.map fun entry =>
    if entry.1 = "Nutrient" then (entry.1, nutrient_name)
    else if entry.1 = "Quantity" then (entry.1, quantity)
    else
      match entry.2 with
      | some json_key =>
        if is_first_row ∧ json_key ≠ "" then (entry.1, pget product_data json_key "")
        else (entry.1, "")
      | none => (entry.1, "")

/-- The `for i, (nut_name, nut_qty) in enumerate(nutrient_pairs)` loop of
`build_rows_for_product`, carrying the running index `i`; `is_first_row` is
`i == 0`. -/
def build_rows_loop (product : Product) : Nat → List (String × String) → List Row
  | _, [] => []
  | i, (nut_name, nut_qty) :: rest =>
    build_row product nut_name nut_qty (i == 0) :: build_rows_loop product (i + 1) rest

/-- `build_rows_for_product` from `src/Main.py`. -/
def build_rows_for_product (product : Product) : List Row :=
  let nutrient_pairs := parse_nutrients (pget product "Nutrient" "")
  match nutrient_pairs with
  | [] => [build_row product "" "" true]
  | pairs => build_rows_loop product 0 pairs

/-- The row-emission loop of `convert_json_to_csv`: for each product record,
in input order, all of its rows. -/
def all_rows : List Product → List Row
  | [] => []
  | p :: rest => build_rows_for_product p ++ all_rows rest

/-- A character list with neither leading nor trailing Python whitespace. -/
def noEdgeSpace (l : List Char) : Bool :=
  (match l.head? with
   | some c => !pyIsSpace c
   | none => true) &&
  (match l.getLast? with
   | some c => !pyIsSpace c
   | none => true)

/-! Structural facts about the item scanner. -/

theorem closeSplit_eq {s q r : List Char} (h : closeSplit s = some (q, r)) :
    s = q ++ ')' :: r ∧ ')' ∉ q := by
  induction s generalizing q r with
  | nil => simp [closeSplit] at h
  | cons c rest ih =>
    rw [closeSplit] at h
    by_cases hc : c = ')'
    · rw [if_pos hc] at h
      simp only [Option.some.injEq, Prod.mk.injEq] at h
      obtain ⟨rfl, rfl⟩ := h
      simp [hc]
    · rw [if_neg hc] at h
      cases hcs : closeSplit rest with
      | none => rw [hcs] at h; simp at h
      | some pr =>
        obtain ⟨q', r'⟩ := pr
        rw [hcs] at h
        simp only [Option.some.injEq, Prod.mk.injEq] at h
        obtain ⟨rfl, rfl⟩ := h
        obtain ⟨h1, h2⟩ := ih hcs
        refine ⟨by simp [h1], ?_⟩
        simp only [List.mem_cons, not_or]
        exact ⟨fun hcc => hc hcc.symm, h2⟩

theorem itemTail_eq {s m r : List Char} (h : itemTail s = some (m, r)) :
    ∃ A B, m = A ++ '(' :: (B ++ [')']) ∧ ',' ∉ A ∧ ')' ∉ B ∧ s = m ++ r := by
  induction s generalizing m r with
  | nil => simp [itemTail] at h
  | cons c rest ih =>
    rw [itemTail] at h
    by_cases hc : c = ','
    · rw [if_pos hc] at h; simp at h
    · rw [if_neg hc] at h
      cases hit : itemTail rest with
      | some pr =>
        obtain ⟨m', r'⟩ := pr
        rw [hit] at h
        simp only [Option.some.injEq, Prod.mk.injEq] at h
        obtain ⟨rfl, rfl⟩ := h
        obtain ⟨A, B, hm, hA, hB, hs⟩ := ih hit
        refine ⟨c :: A, B, by simp [hm], ?_, hB, by simp [hs]⟩
        simp only [List.mem_cons, not_or]
        exact ⟨fun hcc => hc hcc.symm, hA⟩
      | none =>
        rw [hit] at h
        by_cases hcp : c = '('
        · rw [if_pos hcp] at h
          cases hcs : closeSplit rest with
          | none => rw [hcs] at h; simp at h
          | some pr =>
            obtain ⟨q', r'⟩ := pr
            rw [hcs] at h
            simp only [Option.some.injEq, Prod.mk.injEq] at h
            obtain ⟨rfl, rfl⟩ := h
            obtain ⟨h1, h2⟩ := closeSplit_eq hcs
            exact ⟨[], q', by simp [hcp], by simp, h2, by simp [hcp, h1]⟩
        · rw [if_neg hcp] at h; simp at h

theorem matchItemAt_eq {s m r : List Char} (h : matchItemAt s = some (m, r)) :
    ∃ A B, m = A ++ '(' :: (B ++ [')']) ∧ A ≠ [] ∧ ',' ∉ A ∧ ')' ∉ B ∧ s = m ++ r := by
  cases s with
  | nil => simp [matchItemAt] at h
  | cons c rest =>
    rw [matchItemAt] at h
    by_cases hc : c = ','
    · rw [if_pos hc] at h; simp at h
    · rw [if_neg hc] at h
      cases hit : itemTail rest with
      | none => rw [hit] at h; simp at h
      | some pr =>
        obtain ⟨m', r'⟩ := pr
        rw [hit] at h
        simp only [Option.some.injEq, Prod.mk.injEq] at h
        obtain ⟨rfl, rfl⟩ := h
        obtain ⟨A, B, hm, hA, hB, hs⟩ := itemTail_eq hit
        refine ⟨c :: A, B, by simp [hm], by simp, ?_, hB, by simp [hs]⟩
        simp only [List.mem_cons, not_or]
        exact ⟨fun hcc => hc hcc.symm, hA⟩

theorem matchItemAt_length {s m r : List Char} (h : matchItemAt s = some (m, r)) :
    r.length < s.length := by
  obtain ⟨A, B, hm, hA, hcA, hcB, hs⟩ := matchItemAt_eq h
  have : s.length = m.length + r.length := by simp [hs]
  have : m.length > 0 := by simp [hm]
  omega

/-- Fuel adequacy for `findallFuel`: any fuel of at least the input length
gives the same result, so `findall`'s choice of `s.length` computes the
unbounded `re.findall` recursion. -/
theorem findallFuel_congr :
    ∀ (f₁ f₂ : Nat) (s : List Char), s.length ≤ f₁ → s.length ≤ f₂ →
      findallFuel f₁ s = findallFuel f₂ s := by
  intro f₁
  induction f₁ with
  | zero =>
    intro f₂ s h1 _
    have : s = [] := List.length_eq_zero.mp (Nat.le_zero.mp h1)
    subst this
    cases f₂ <;> rfl
  | succ f ih =>
    intro f₂ s h1 h2
    cases s with
    | nil => cases f₂ <;> rfl
    | cons c t =>
      cases f₂ with
      | zero => simp at h2
      | succ g =>
        rw [findallFuel, findallFuel]
        cases hm : matchItemAt (c :: t) with
        | some pr =>
          obtain ⟨m, r⟩ := pr
          have hr : r.length < (c :: t).length := matchItemAt_length hm
          simp only [List.length_cons] at h1 h2 hr
          exact congrArg (m :: ·) (ih g r (by omega) (by omega))
        | none =>
          simp only [List.length_cons] at h1 h2
          exact ih g t (by omega) (by omega)

/-- The recursion `findall` actually satisfies, fuel-free. -/
theorem findall_unfold (s : List Char) :
    findall s = (match matchItemAt s with
      | some (m, r) => m :: findall r
      | none => match s with
        | [] => []
        | _ :: t => findall t) := by
  cases s with
  | nil => rfl
  | cons c t =>
    show findallFuel (t.length + 1) (c :: t) = _
    rw [findallFuel]
    cases hm : matchItemAt (c :: t) with
    | some pr =>
      obtain ⟨m, r⟩ := pr
      have hr : r.length < (c :: t).length := matchItemAt_length hm
      simp only [List.length_cons] at hr
      exact congrArg (m :: ·) (findallFuel_congr t.length r.length r (by omega) le_rfl)
    | none => rfl

/-! Emptiness of the scan when the input has no opening parenthesis. -/

theorem itemTail_none_of_no_open {s : List Char} (h : '(' ∉ s) : itemTail s = none := by
  induction s with
  | nil => rfl
  | cons c rest ih =>
    have hc : c ≠ '(' := fun hc => h (hc ▸ List.mem_cons_self c rest)
    have hrest : '(' ∉ rest := fun hr => h (List.mem_cons_of_mem c hr)
    rw [itemTail, ih hrest, if_neg hc]
    by_cases hcm : c = ','
    · rw [if_pos hcm]
    · rw [if_neg hcm]

theorem matchItemAt_none_of_no_open {s : List Char} (h : '(' ∉ s) :
    matchItemAt s = none := by
  cases s with
  | nil => rfl
  | cons c rest =>
    have hrest : '(' ∉ rest := fun hr => h (List.mem_cons_of_mem c hr)
    rw [matchItemAt, itemTail_none_of_no_open hrest]
    by_cases hcm : c = ','
    · rw [if_pos hcm]
    · rw [if_neg hcm]

theorem findallFuel_nil_of_no_open :
    ∀ (fuel : Nat) (s : List Char), '(' ∉ s → findallFuel fuel s = [] := by
  intro fuel
  induction fuel with
  | zero => intro s _; rfl
  | succ f ih =>
    intro s h
    cases s with
    | nil => rfl
    | cons c t =>
      rw [findallFuel, matchItemAt_none_of_no_open h]
      exact ih t fun ht => h (List.mem_cons_of_mem c ht)

/-- A shared helper behind claims C1 and C5: with no `'('` in the input,
`parse_nutrients` returns no entry at all. -/
theorem parse_nutrients_nil_of_no_open {s : String} (h : '(' ∉ s.data) :
    parse_nutrients s = [] := by
  simp [parse_nutrients, findall, findallFuel_nil_of_no_open _ _ h]

/-! Shape and provenance of the items `findall` returns. -/

theorem findallFuel_shape :
    ∀ (fuel : Nat) (s x : List Char), x ∈ findallFuel fuel s →
      ∃ A B, x = A ++ '(' :: (B ++ [')']) ∧ A ≠ [] ∧ ',' ∉ A ∧ ')' ∉ B := by
  intro fuel
  induction fuel with
  | zero => intro s x h; simp [findallFuel] at h
  | succ f ih =>
    intro s x h
    cases s with
    | nil => simp [findallFuel] at h
    | cons c t =>
      rw [findallFuel] at h
      cases hm : matchItemAt (c :: t) with
      | some pr =>
        obtain ⟨m, r⟩ := pr
        rw [hm] at h
        rcases List.mem_cons.mp h with rfl | hmem
        · obtain ⟨A, B, hx, hA, hcA, hcB, _⟩ := matchItemAt_eq hm
          exact ⟨A, B, hx, hA, hcA, hcB⟩
        · exact ih r x hmem
      | none =>
        rw [hm] at h
        exact ih t x h

theorem findallFuel_subset :
    ∀ (fuel : Nat) (s x : List Char), x ∈ findallFuel fuel s → ∀ c ∈ x, c ∈ s := by
  intro fuel
  induction fuel with
  | zero => intro s x h; simp [findallFuel] at h
  | succ f ih =>
    intro s x h
    cases s with
    | nil => simp [findallFuel] at h
    | cons c t =>
      rw [findallFuel] at h
      cases hm : matchItemAt (c :: t) with
      | some pr =>
        obtain ⟨m, r⟩ := pr
        rw [hm] at h
        obtain ⟨_, _, _, _, _, _, hs⟩ := matchItemAt_eq hm
        rcases List.mem_cons.mp h with rfl | hmem
        · intro a ha
          rw [hs]
          exact List.mem_append_left _ ha
        · intro a ha
          rw [hs]
          exact List.mem_append_right _ (ih r x hmem a ha)
      | none =>
        rw [hm] at h
        exact fun a ha => List.mem_cons_of_mem c (ih t x h a ha)

/-! Structural facts about the name/quantity splitter. -/

theorem scanQty_eq {s q : List Char} (h : scanQty s = some q) :
    ∃ r, s = q ++ ')' :: r ∧ ')' ∉ q ∧ '\n' ∉ q := by
  induction s generalizing q with
  | nil => simp [scanQty] at h
  | cons c rest ih =>
    rw [scanQty] at h
    by_cases hc : c = ')'
    · rw [if_pos hc] at h
      simp only [Option.some.injEq] at h
      exact ⟨rest, by simp [hc, ← h], by simp [← h], by simp [← h]⟩
    · rw [if_neg hc] at h
      by_cases hn : c = '\n'
      · rw [if_pos hn] at h; simp at h
      · rw [if_neg hn] at h
        cases hs : scanQty rest with
        | none => rw [hs] at h; simp at h
        | some q' =>
          rw [hs] at h
          simp only [Option.some.injEq] at h
          obtain rfl := h.symm
          obtain ⟨r, h1, h2, h3⟩ := ih hs
          refine ⟨r, by simp [h1], ?_, ?_⟩
          · simp only [List.mem_cons, not_or]
            exact ⟨fun hcc => hc hcc.symm, h2⟩
          · simp only [List.mem_cons, not_or]
            exact ⟨fun hcc => hn hcc.symm, h3⟩

theorem scanQty_isSome {s : List Char} (hnl : '\n' ∉ s) (hcp : ')' ∈ s) :
    (scanQty s).isSome = true := by
  induction s with
  | nil => simp at hcp
  | cons c rest ih =>
    rw [scanQty]
    by_cases hc : c = ')'
    · rw [if_pos hc]; rfl
    · rw [if_neg hc]
      have hn : c ≠ '\n' := fun hn => hnl (hn ▸ List.mem_cons_self c rest)
      rw [if_neg hn]
      have h1 : '\n' ∉ rest := fun hr => hnl (List.mem_cons_of_mem c hr)
      have h2 : ')' ∈ rest := by
        rcases List.mem_cons.mp hcp with hcc | hr
        · exact absurd hcc.symm hc
        · exact hr
      cases hs : scanQty rest with
      | none => rw [hs] at ih; exact absurd (ih h1 h2) (by simp)
      | some q' => rfl

theorem scanQty_none {s : List Char} (h : scanQty s = none) :
    ∀ q r, s = q ++ ')' :: r → '\n' ∈ q := by
  induction s with
  | nil => intro q r hq; simp at hq
  | cons c rest ih =>
    intro q r hq
    rw [scanQty] at h
    by_cases hc : c = ')'
    · rw [if_pos hc] at h; simp at h
    · rw [if_neg hc] at h
      cases q with
      | nil => simp at hq; exact absurd hq.1 hc
      | cons a q' =>
        simp only [List.cons_append, List.cons.injEq] at hq
        obtain ⟨rfl, hq⟩ := hq
        by_cases hn : c = '\n'
        · exact hn ▸ List.mem_cons_self c q'
        · rw [if_neg hn] at h
          cases hs : scanQty rest with
          | some q'' => rw [hs] at h; simp at h
          | none => exact List.mem_cons_of_mem c (ih hs q' r hq)

theorem nameQty_isSome :
    ∀ (X Y : List Char), '\n' ∉ X → '\n' ∉ Y → ')' ∈ Y →
      (nameQty (X ++ '(' :: Y)).isSome = true := by
  intro X
  induction X with
  | nil =>
    intro Y hnX hnY hcp
    rw [List.nil_append, nameQty]
    rw [if_neg (by decide : ¬('(' : Char) = '\n'), if_pos rfl]
    cases hs : scanQty Y with
    | none => exact absurd (scanQty_isSome hnY hcp) (by simp [hs])
    | some q => rfl
  | cons x X' ih =>
    intro Y hnX hnY hcp
    have hx : x ≠ '\n' := fun hx => hnX (hx ▸ List.mem_cons_self x X')
    have hX' : '\n' ∉ X' := fun hm => hnX (List.mem_cons_of_mem x hm)
    have hrec := ih Y hX' hnY hcp
    rw [List.cons_append, nameQty, if_neg hx]
    by_cases hxp : x = '('
    · rw [if_pos hxp]
      cases hs : scanQty (X' ++ '(' :: Y) with
      | some q => rfl
      | none =>
        cases hn : nameQty (X' ++ '(' :: Y) with
        | none => rw [hn] at hrec; simp at hrec
        | some pr => obtain ⟨n, q⟩ := pr; rfl
    · rw [if_neg hxp]
      cases hn : nameQty (X' ++ '(' :: Y) with
      | none => rw [hn] at hrec; simp at hrec
      | some pr => obtain ⟨n, q⟩ := pr; rfl

theorem nameQty_eq {s n q : List Char} (h : nameQty s = some (n, q)) :
    '(' ∉ n ∧ '\n' ∉ n ∧ ')' ∉ q ∧ '\n' ∉ q ∧ ∃ r, s = n ++ '(' :: q ++ ')' :: r := by
  induction s generalizing n q with
  | nil => simp [nameQty] at h
  | cons c rest ih =>
    rw [nameQty] at h
    by_cases hn : c = '\n'
    · rw [if_pos hn] at h; simp at h
    · rw [if_neg hn] at h
      by_cases hp : c = '('
      · rw [if_pos hp] at h
        cases hs : scanQty rest with
        | some q' =>
          rw [hs] at h
          simp only [Option.some.injEq, Prod.mk.injEq] at h
          obtain ⟨rfl, rfl⟩ := h
          obtain ⟨r, h1, h2, h3⟩ := scanQty_eq hs
          exact ⟨by simp, by simp, h2, h3, r, by simp [hp, h1]⟩
        | none =>
          rw [hs] at h
          cases hq : nameQty rest with
          | none => rw [hq] at h; simp at h
          | some pr =>
            obtain ⟨n', q'⟩ := pr
            obtain ⟨hp1, hn1, hp2, hn2, r', hrest⟩ := ih hq
            have : '\n' ∈ n' ++ '(' :: q' := by
              apply scanQty_none hs (n' ++ '(' :: q') r'
              simp [hrest]
            simp only [List.mem_append, List.mem_cons] at this
            rcases this with h1 | h2 | h3
            · exact absurd h1 hn1
            · exact absurd h2.symm (by decide)
            · exact absurd h3 hn2
      · rw [if_neg hp] at h
        cases hq : nameQty rest with
        | none => rw [hq] at h; simp at h
        | some pr =>
          obtain ⟨n', q'⟩ := pr
          rw [hq] at h
          simp only [Option.some.injEq, Prod.mk.injEq] at h
          obtain ⟨rfl, rfl⟩ := h
          obtain ⟨hp1, hn1, hp2, hn2, r', hrest⟩ := ih hq
          refine ⟨?_, ?_, hp2, hn2, r', by simp [hrest]⟩
          · simp only [List.mem_cons, not_or]
            exact ⟨fun hcc => hp hcc.symm, hp1⟩
          · simp only [List.mem_cons, not_or]
            exact ⟨fun hcc => hn hcc.symm, hn1⟩

/-! Facts about `pyStrip`. -/

theorem dropWhile_head_false {p : Char → Bool} :
    ∀ {l : List Char} {c : Char} {t : List Char}, l.dropWhile p = c :: t → p c = false := by
  intro l
  induction l with
  | nil => intro c t h; simp at h
  | cons a l ih =>
    intro c t h
    rw [List.dropWhile_cons] at h
    by_cases hpa : p a
    · rw [if_pos hpa] at h; exact ih h
    · rw [if_neg hpa] at h
      obtain ⟨rfl, rfl⟩ := List.cons.injEq .. ▸ h
      simpa using hpa

theorem pyStrip_subset {s : List Char} : ∀ c ∈ pyStrip s, c ∈ s := by
  intro c hc
  unfold pyStrip at hc
  rw [List.mem_reverse] at hc
  have h1 := (List.dropWhile_suffix pyIsSpace).subset hc
  rw [List.mem_reverse] at h1
  exact (List.dropWhile_suffix pyIsSpace).subset h1

theorem pyStrip_head? {s : List Char} {c : Char} (h : (pyStrip s).head? = some c) :
    pyIsSpace c = false := by
  unfold pyStrip at h
  rw [List.head?_reverse] at h
  have hEne : (s.dropWhile pyIsSpace).reverse.dropWhile pyIsSpace ≠ [] := by
    intro hnil
    rw [hnil] at h
    simp at h
  obtain ⟨pre, hpre⟩ := List.dropWhile_suffix (l := (s.dropWhile pyIsSpace).reverse) pyIsSpace
  have h2 : (s.dropWhile pyIsSpace).reverse.getLast? = some c := by
    rw [← hpre, List.getLast?_append_of_ne_nil pre hEne]
    exact h
  rw [List.getLast?_reverse] at h2
  cases hD : s.dropWhile pyIsSpace with
  | nil => rw [hD] at h2; simp at h2
  | cons d t =>
    rw [hD] at h2
    simp only [List.head?_cons, Option.some.injEq] at h2
    subst h2
    exact dropWhile_head_false hD

theorem pyStrip_getLast? {s : List Char} {c : Char} (h : (pyStrip s).getLast? = some c) :
    pyIsSpace c = false := by
  unfold pyStrip at h
  rw [List.getLast?_reverse] at h
  cases hE : (s.dropWhile pyIsSpace).reverse.dropWhile pyIsSpace with
  | nil => rw [hE] at h; simp at h
  | cons d t =>
    rw [hE] at h
    simp only [List.head?_cons, Option.some.injEq] at h
    subst h
    exact dropWhile_head_false hE

theorem pyStrip_noEdgeSpace (s : List Char) : noEdgeSpace (pyStrip s) = true := by
  rw [noEdgeSpace, Bool.and_eq_true]
  constructor
  · cases h : (pyStrip s).head? with
    | none => rfl
    | some c => simp [pyStrip_head? h]
  · cases h : (pyStrip s).getLast? with
    | none => rfl
    | some c => simp [pyStrip_getLast? h]

theorem pyStrip_append_nonspace {l : List Char} {a : Char} (ha : pyIsSpace a = false) :
    pyStrip (l ++ [a]) = (l ++ [a]).dropWhile pyIsSpace := by
  have hDne : (l ++ [a]).dropWhile pyIsSpace ≠ [] := by
    intro hnil
    have hall := List.dropWhile_eq_nil_iff.mp hnil
    have := hall a (by simp)
    rw [ha] at this
    exact absurd this (by simp)
  obtain ⟨pre, hpre⟩ := List.dropWhile_suffix (l := l ++ [a]) pyIsSpace
  have hlast : ((l ++ [a]).dropWhile pyIsSpace).getLast? = some a := by
    have hgl : (l ++ [a]).getLast? = some a := by simp
    rw [← hpre, List.getLast?_append_of_ne_nil pre hDne] at hgl
    exact hgl
  have hrev : ((l ++ [a]).dropWhile pyIsSpace).reverse.head? = some a := by
    rw [List.head?_reverse]
    exact hlast
  unfold pyStrip
  cases hDr : ((l ++ [a]).dropWhile pyIsSpace).reverse with
  | nil => rw [hDr] at hrev; simp at hrev
  | cons x xs =>
    rw [hDr] at hrev
    simp only [List.head?_cons, Option.some.injEq] at hrev
    subst hrev
    rw [List.dropWhile_cons, if_neg (by simp [ha])]
    rw [← hDr, List.reverse_reverse]

theorem dropWhile_space_append (A rest : List Char) :
    ∃ A', (A ++ '(' :: rest).dropWhile pyIsSpace = A' ++ '(' :: rest ∧ A' <:+ A := by
  induction A with
  | nil =>
    refine ⟨[], ?_, List.nil_suffix⟩
    simp [List.dropWhile_cons, (by decide : pyIsSpace '(' = false)]
  | cons a A ih =>
    by_cases hpa : pyIsSpace a
    · obtain ⟨A', h1, h2⟩ := ih
      refine ⟨A', ?_, h2.trans (List.suffix_cons a A)⟩
      rw [List.cons_append, List.dropWhile_cons, if_pos hpa]
      exact h1
    · refine ⟨a :: A, ?_, List.suffix_rfl⟩
      rw [List.cons_append, List.dropWhile_cons, if_neg hpa]

theorem prefix_of_no_open :
    ∀ {n₀ X Y Z : List Char}, n₀ ++ '(' :: Y = X ++ '(' :: Z → '(' ∉ n₀ → n₀ <+: X := by
  intro n₀
  induction n₀ with
  | nil => intro X Y Z _ _; exact ⟨X, by simp⟩
  | cons a n ih =>
    intro X Y Z heq hnp
    cases X with
    | nil =>
      simp only [List.nil_append, List.cons_append, List.cons.injEq] at heq
      exact absurd heq.1 fun h => hnp (h ▸ List.mem_cons_self a n)
    | cons x X' =>
      simp only [List.cons_append, List.cons.injEq] at heq
      obtain ⟨rfl, heq2⟩ := heq
      obtain ⟨t, ht⟩ := ih heq2 fun hm => hnp (List.mem_cons_of_mem a hm)
      exact ⟨t, by simp [ht]⟩

/-- Shared analysis behind claims C9 and C10: for a newline-free input every
item `findall` returns, once stripped, is split by
`NUTRIENT_NAME_AND_QTY_REGEX`, and the resulting name contains no comma and
no opening parenthesis while the quantity contains no closing parenthesis. -/
theorem item_structure {s : String} (hnl : '\n' ∉ s.data) {item : List Char}
    (hitem : item ∈ findall s.data) :
    ∃ n₀ q₀, nameQty (pyStrip item) = some (n₀, q₀) ∧
      ',' ∉ n₀ ∧ '(' ∉ n₀ ∧ ')' ∉ q₀ := by
  obtain ⟨A, B, hx, hA, hcA, hcB⟩ := findallFuel_shape _ _ _ hitem
  have hsub : ∀ c ∈ item, c ∈ s.data := findallFuel_subset _ _ _ hitem
  have hnli : '\n' ∉ item := fun hm => hnl (hsub _ hm)
  have hform : item = (A ++ '(' :: B) ++ [')'] := by simp [hx]
  have hstrip0 : pyStrip item = ((A ++ '(' :: B) ++ [')']).dropWhile pyIsSpace := by
    rw [hform]
    exact pyStrip_append_nonspace (by decide)
  obtain ⟨A', hdrop, hsufA⟩ := dropWhile_space_append A (B ++ [')'])
  have hassoc : (A ++ '(' :: B) ++ [')'] = A ++ '(' :: (B ++ [')']) := by simp
  have hstrip : pyStrip item = A' ++ '(' :: (B ++ [')']) := by
    rw [hstrip0, hassoc, hdrop]
  have hnlA' : '\n' ∉ A' := by
    intro hm
    apply hnli
    rw [hx]
    exact List.mem_append_left _ (hsufA.subset hm)
  have hnlB : '\n' ∉ B ++ [')'] := by
    intro hm
    rcases List.mem_append.mp hm with hmB | hmc
    · apply hnli
      rw [hx]
      exact List.mem_append_right _ (List.mem_cons_of_mem _ (List.mem_append_left _ hmB))
    · simp at hmc
  have hsome := nameQty_isSome A' (B ++ [')']) hnlA' hnlB (by simp)
  rw [hstrip]
  cases hnq : nameQty (A' ++ '(' :: (B ++ [')'])) with
  | none => rw [hnq] at hsome; simp at hsome
  | some pr =>
    obtain ⟨n₀, q₀⟩ := pr
    obtain ⟨hpn, _, hpq, _, r, hdecomp⟩ := nameQty_eq hnq
    have hdecomp2 : n₀ ++ '(' :: (q₀ ++ ')' :: r) = A' ++ '(' :: (B ++ [')']) := by
      rw [hdecomp]
      simp
    have hpre : n₀ <+: A' := prefix_of_no_open hdecomp2 hpn
    have hcommaA' : ',' ∉ A' := fun hm => hcA (hsufA.subset hm)
    exact ⟨n₀, q₀, rfl, fun hm => hcommaA' (hpre.subset hm), hpn, hpq⟩

/-! Facts about the row expander. -/

theorem build_rows_loop_length (p : Product) :
    ∀ (l : List (String × String)) (i : Nat), (build_rows_loop p i l).length = l.length := by
  intro l
  induction l with
  | nil => intro i; rfl
  | cons a rest ih =>
    intro i
    obtain ⟨nm, qt⟩ := a
    simp [build_rows_loop, ih]

theorem build_rows_loop_tail_false (p : Product) :
    ∀ (l : List (String × String)) (i : Nat),
      build_rows_loop p (i + 1) l = l.map fun pq => build_row p pq.1 pq.2 false := by
  intro l
  induction l with
  | nil => intro i; rfl
  | cons a rest ih =>
    intro i
    obtain ⟨nm, qt⟩ := a
    rw [build_rows_loop, List.map_cons]
    rw [show ((i + 1 : Nat) == 0) = false by simp]
    rw [ih (i + 1)]

theorem lookup_build_row_nutrient (p : Product) (n q : String) (b : Bool) :
    List.lookup "Nutrient" (build_row p n q b) = some n := by
  cases b <;> simp [build_row, COLUMN_MAPPING, List.lookup]

theorem lookup_build_row_quantity (p : Product) (n q : String) (b : Bool) :
    List.lookup "Quantity" (build_row p n q b) = some q := by
  cases b <;> simp [build_row, COLUMN_MAPPING, List.lookup]

theorem lookup_build_row_first (p : Product) (n q col key : String)
    (h : (col, some key) ∈ COLUMN_MAPPING) :
    List.lookup col (build_row p n q true) = some (pget p key "") := by
  simp only [COLUMN_MAPPING, List.mem_cons, List.not_mem_nil, or_false, Prod.mk.injEq,
    Option.some.injEq, reduceCtorEq, and_false, false_or] at h
  casesm* _ ∨ _, _ ∧ _
  all_goals subst_vars
  all_goals simp [build_row, COLUMN_MAPPING, List.lookup]

theorem lookup_build_row_cont (p : Product) (n q col key : String)
    (h : (col, some key) ∈ COLUMN_MAPPING) :
    List.lookup col (build_row p n q false) = some "" := by
  simp only [COLUMN_MAPPING, List.mem_cons, List.not_mem_nil, or_false, Prod.mk.injEq,
    Option.some.injEq, reduceCtorEq, and_false, false_or] at h
  casesm* _ ∨ _, _ ∧ _
  all_goals subst_vars
  all_goals simp [build_row, COLUMN_MAPPING, List.lookup]

theorem build_row_cols (p : Product) (n q : String) (b : Bool) :
    (build_row p n q b).map Prod.fst = COLUMN_MAPPING.map Prod.fst := by
  cases b <;> simp [build_row, COLUMN_MAPPING]

theorem build_rows_loop_NQ (p : Product) :
    ∀ (l : List (String × String)) (i : Nat),
      (build_rows_loop p i l).map
        (fun r => ((List.lookup "Nutrient" r).getD "", (List.lookup "Quantity" r).getD "")) = l := by
  intro l
  induction l with
  | nil => intro i; rfl
  | cons a rest ih =>
    intro i
    obtain ⟨nm, qt⟩ := a
    rw [build_rows_loop, List.map_cons, ih (i + 1)]
    simp [lookup_build_row_nutrient, lookup_build_row_quantity]

/-! The claims. -/

/-- Claim C1, counterexample: on the input `"JustAName"` (an item with no
parentheses) `parse_nutrients` does not return the single fallback entry
`("JustAName", "")` that the specification promises. -/
theorem claim_C1_cex : parse_nutrients "JustAName" ≠ [("JustAName", "")] := by decide

/-- Claim C1, amended: a candidate item with no parenthesis pair is never
emitted at all — `NUTRIENT_ITEM_REGEX` itself requires a parenthesis pair, so
an input string without an opening parenthesis (such as `"JustAName"`)
parses to the empty list, silently and without error. -/
theorem claim_C1 (s : String) (h : '(' ∉ s.data) : parse_nutrients s = [] :=
  parse_nutrients_nil_of_no_open h

/-- Witness for C1 at the specification's own example input. -/
theorem claim_C1_witness :
    '(' ∉ ("JustAName" : String).data ∧ parse_nutrients "JustAName" = [] :=
  ⟨by decide, claim_C1 "JustAName" (by decide)⟩

/-- Claim C2: the decimal-comma example splits into exactly the two expected
entries; the comma inside `(0,5 g)` is treated as data, not as a separator. -/
theorem claim_C2 : parse_nutrients "Tuky(0,5 g), Bílkoviny(1 g)" =
    [("Tuky", "0,5 g"), ("Bílkoviny", "1 g")] := by decide

/-- Claim C3: for every product record the number of output rows equals
`max 1 n` where `n` is the number of parsed nutrient entries; in particular
the row list is never empty. -/
theorem claim_C3 (p : Product) :
    (build_rows_for_product p).length =
      max 1 (parse_nutrients (pget p "Nutrient" "")).length := by
  simp only [build_rows_for_product]
  cases h : parse_nutrients (pget p "Nutrient" "") with
  | nil => rfl
  | cons a l =>
    obtain ⟨nm, qt⟩ := a
    simp only [build_rows_loop, List.length_cons, build_rows_loop_length]
    omega

/-- Claim C4: every product's row group starts with exactly one first row
(built with `is_first_row = true`), and every later row is a continuation
row: built with `is_first_row = false` from one of the parsed nutrient
entries, carrying that entry in the two procedural columns and the empty
string in every column that has a source field. -/
theorem claim_C4 (p : Product) :
    ∃ n0 q0 rest, build_rows_for_product p = build_row p n0 q0 true :: rest ∧
      ∀ r ∈ rest, ∃ nm qt,
        (nm, qt) ∈ parse_nutrients (pget p "Nutrient" "") ∧
        r = build_row p nm qt false ∧
        List.lookup "Nutrient" r = some nm ∧
        List.lookup "Quantity" r = some qt ∧
        ∀ col key, (col, some key) ∈ COLUMN_MAPPING → List.lookup col r = some "" := by
  simp only [build_rows_for_product]
  cases h : parse_nutrients (pget p "Nutrient" "") with
  | nil => exact ⟨"", "", [], rfl, by simp⟩
  | cons a l =>
    obtain ⟨nm, qt⟩ := a
    refine ⟨nm, qt, build_rows_loop p 1 l, by simp [build_rows_loop], ?_⟩
    rw [build_rows_loop_tail_false p l 0]
    intro r hr
    rw [List.mem_map] at hr
    obtain ⟨⟨nm', qt'⟩, hmem, rfl⟩ := hr
    refine ⟨nm', qt', ?_, rfl, lookup_build_row_nutrient .., lookup_build_row_quantity .., ?_⟩
    · exact List.mem_cons_of_mem _ hmem
    · intro col key hck
      exact lookup_build_row_cont p nm' qt' col key hck

/-- Claim C5: a missing, empty or whitespace-only nutrient field parses to
zero entries (not an error), and the expander emits exactly one row, a first
row, with both nutrient columns empty and every mapped column taken from the
record. -/
theorem claim_C5 (p : Product)
    (h : ∀ c ∈ (pget p "Nutrient" "").data, pyIsSpace c = true) :
    parse_nutrients (pget p "Nutrient" "") = [] ∧
    build_rows_for_product p = [build_row p "" "" true] ∧
    List.lookup "Nutrient" (build_row p "" "" true) = some "" ∧
    List.lookup "Quantity" (build_row p "" "" true) = some "" ∧
    ∀ col key, (col, some key) ∈ COLUMN_MAPPING →
      List.lookup col (build_row p "" "" true) = some (pget p key "") := by
  have hno : '(' ∉ (pget p "Nutrient" "").data := by
    intro hm
    exact absurd (h _ hm) (by decide)
  have hpar : parse_nutrients (pget p "Nutrient" "") = [] :=
    parse_nutrients_nil_of_no_open hno
  refine ⟨hpar, ?_, lookup_build_row_nutrient p "" "" true,
    lookup_build_row_quantity p "" "" true, ?_⟩
  · simp only [build_rows_for_product]
    rw [hpar]
  · intro col key hck
    exact lookup_build_row_first p "" "" col key hck

/-- Witness for C5: a record with no `"Nutrient"` field at all. -/
theorem claim_C5_witness :
    parse_nutrients (pget [("Product Name", "Bar")] "Nutrient" "") = [] ∧
    build_rows_for_product [("Product Name", "Bar")] =
      [build_row [("Product Name", "Bar")] "" "" true] := by
  have h := claim_C5 [("Product Name", "Bar")] (by decide)
  exact ⟨h.1, h.2.1⟩

/-- Claim C6: on a first row a mapped column whose source field is absent
from the record degrades to the empty string (no error), and the row still
maps every output column name in order. -/
theorem claim_C6 (p : Product) (n q col key : String)
    (h1 : (col, some key) ∈ COLUMN_MAPPING) (h2 : List.lookup key p = none) :
    List.lookup col (build_row p n q true) = some "" ∧
    (build_row p n q true).map Prod.fst = COLUMN_MAPPING.map Prod.fst := by
  constructor
  · rw [lookup_build_row_first p n q col key h1]
    simp [pget, h2]
  · exact build_row_cols p n q true

/-- Witness for C6: an empty record is missing the `"SKU"` field. -/
theorem claim_C6_witness :
    List.lookup "SKU" (build_row [] "n" "q" true) = some "" ∧
    (build_row [] "n" "q" true).map Prod.fst = COLUMN_MAPPING.map Prod.fst :=
  claim_C6 [] "n" "q" "SKU" "SKU" (by decide) rfl

/-- Claim C7: order is preserved end to end — reading the two procedural
columns off a product's rows gives back the parsed entries in parser order
(with the single blank pair when nothing parsed), and the full output is the
concatenation of the per-record groups in input order. -/
theorem claim_C7 :
    (∀ p : Product,
      (build_rows_for_product p).map
          (fun r => ((List.lookup "Nutrient" r).getD "", (List.lookup "Quantity" r).getD "")) =
        (match parse_nutrients (pget p "Nutrient" "") with
         | [] => [("", "")]
         | pairs => pairs)) ∧
    (∀ data : List Product, all_rows data = (data.map build_rows_for_product).flatten) := by
  constructor
  · intro p
    simp only [build_rows_for_product]
    cases h : parse_nutrients (pget p "Nutrient" "") with
    | nil => simp [lookup_build_row_nutrient, lookup_build_row_quantity]
    | cons a l => exact build_rows_loop_NQ p (a :: l) 0
  · intro data
    induction data with
    | nil => rfl
    | cons p rest ih => simp [all_rows, ih]

/-- Claim C8: `parse_nutrients` is a pure function of its input string —
equal inputs give equal outputs (the embedding has no other state to depend
on). -/
theorem claim_C8 (s t : String) (h : s = t) :
    parse_nutrients s = parse_nutrients t := by rw [h]

/-- Witness for C8. -/
theorem claim_C8_witness :
    ("Tuky(0,5 g)" : String) = "Tuky(0,5 g)" ∧
    parse_nutrients "Tuky(0,5 g)" = parse_nutrients "Tuky(0,5 g)" :=
  ⟨rfl, claim_C8 "Tuky(0,5 g)" "Tuky(0,5 g)" rfl⟩

/-- Claim C9, counterexample: the fallback branch of `parse_nutrients` is
reachable.  On input `"a\n(b)"` the item regex (whose negated classes accept
a newline) returns the item `a\n(b)`, but the name/quantity regex (whose
dot refuses a newline) fails on it, so the `(item, "")` fallback fires. -/
theorem claim_C9_cex :
    findall ("a\n(b)" : String).data = [['a', '\n', '(', 'b', ')']] ∧
    nameQty (pyStrip ['a', '\n', '(', 'b', ')']) = none ∧
    parse_nutrients "a\n(b)" = [("a\n(b)", "")] := by decide

/-- Claim C9, amended: for every input string containing no newline, every
item returned by `findall`, after stripping, matches
`NUTRIENT_NAME_AND_QTY_REGEX`, so the split branch is taken for every item;
only items with a newline can fall through to the fallback. -/
theorem claim_C9 (s : String) (h : '\n' ∉ s.data) :
    ∀ item ∈ findall s.data, (nameQty (pyStrip item)).isSome = true := by
  intro item hitem
  obtain ⟨n₀, q₀, hnq, _⟩ := item_structure h hitem
  rw [hnq]
  rfl

/-- Witness for C9. -/
theorem claim_C9_witness : (nameQty (pyStrip ['A', '(', '1', ')'])).isSome = true :=
  claim_C9 "A(1)" (by decide) ['A', '(', '1', ')'] (by decide)

/-- Claim C10, counterexample: input `"x\n(1,5)"` produces the fallback
entry whose name is the whole item, which contains both an opening
parenthesis and a comma. -/
theorem claim_C10_cex :
    (("x\n(1,5)", "") ∈ parse_nutrients "x\n(1,5)") ∧
    '(' ∈ ("x\n(1,5)" : String).data ∧ ',' ∈ ("x\n(1,5)" : String).data := by decide

/-- Claim C10, amended: for every input string containing no newline, every
entry returned by `parse_nutrients` has a name free of commas and opening
parentheses, a quantity free of closing parentheses, and neither string has
leading or trailing whitespace. -/
theorem claim_C10 (s : String) (h : '\n' ∉ s.data) (n q : String)
    (hmem : (n, q) ∈ parse_nutrients s) :
    ',' ∉ n.data ∧ '(' ∉ n.data ∧ ')' ∉ q.data ∧
    noEdgeSpace n.data = true ∧ noEdgeSpace q.data = true := by
  simp only [parse_nutrients, List.mem_map] at hmem
  obtain ⟨item, hitem, heq⟩ := hmem
  obtain ⟨n₀, q₀, hnq, hcn, hpn, hpq⟩ := item_structure h hitem
  rw [hnq] at heq
  rw [Prod.mk.injEq] at heq
  obtain ⟨h1, h2⟩ := heq
  subst h1
  subst h2
  exact ⟨fun hm => hcn (pyStrip_subset _ hm),
    fun hm => hpn (pyStrip_subset _ hm),
    fun hm => hpq (pyStrip_subset _ hm),
    pyStrip_noEdgeSpace n₀, pyStrip_noEdgeSpace q₀⟩

/-- Witness for C10. -/
theorem claim_C10_witness :
    ',' ∉ ("A" : String).data ∧ '(' ∉ ("A" : String).data ∧ ')' ∉ ("1" : String).data ∧
    noEdgeSpace ("A" : String).data = true ∧ noEdgeSpace ("1" : String).data = true :=
  claim_C10 "A(1)" (by decide) "A" "1" (by decide)
